import Mathlib

/-!
Verification of the caching layer in `src/cache.py` (PCO API wrapper).

The development shallowly embeds the cache code: Python dicts become
functions to `Option`, wall-clock instants (`time.time()`) become explicit
integer parameters threaded through every operation, and Python's
`None` sentinel becomes `Option.none`.  Cached values are the JSON-serializable
Python data the cache stores (ints, bools, strings, lists, dicts); per the
spec the absent sentinel is distinct from every valid cached value, so the
value type has no `null` constructor and `Option Value` marks presence.
-/

/-!
Wall-clock instants (`time.time()`) and TTL durations are `ℤ` throughout:
integers stand in for Python floats, since every claim quantifies over whole
seconds and only ordering and addition of instants matter to the code.
-/

/-- A JSON-serializable Python value as stored by the cache: `int`, `bool`,
`str`, `list`, `dict` (string keys, insertion order preserved). -/
inductive Value where
  | int (n : ℤ)
  | bool (b : Bool)
  | str (s : String)
  | list (items : List Value)
  | dict (entries : List (String × Value))

/-- Pointwise update of a Python-dict-as-function: `d[key] = v` /
`del d[key]` (with `v := none`). -/
def update {α : Type} (f : String → Option α) (key : String) (v : Option α) :
    String → Option α :=
  fun k => if k = key then v else f k

/-- The `InMemoryCache` backend state: `_cache` maps keys to stored values,
`_expiry` maps keys to absolute expiry instants (`time.time() + ttl`). -/
structure InMemoryCache where
  cache : String → Option Value
  expiry : String → Option ℤ

/-- A freshly constructed `InMemoryCache()`: both dicts empty. -/
def InMemoryCache.empty : InMemoryCache :=
  ⟨fun _ => none, fun _ => none⟩

/-- `InMemoryCache.delete`: removes the key from both dicts and returns
`True` (the `try` body cannot fail). -/
def InMemoryCache.delete (s : InMemoryCache) (key : String) :
    Bool × InMemoryCache :=
  (true, ⟨update s.cache key none, update s.expiry key none⟩)

/-- `InMemoryCache.get` at instant `now`: `None` if the key is absent from
`_cache`; if the key has an `_expiry` entry that has passed (`now` strictly
greater), the entry is deleted (lazy purge) and `None` returned; otherwise
the stored value is returned, state unchanged. -/
def InMemoryCache.get (s : InMemoryCache) (key : String) (now : ℤ) :
    Option Value × InMemoryCache :=
  match s.cache key with
  | none => (none, s)
  | some v =>
    match s.expiry key with
    | some e => if now > e then (none, (s.delete key).2) else (some v, s)
    | none => (some v, s)

/-- `InMemoryCache.set`: stores the value and its absolute expiry
`now + ttl`, returning `True` (assignment cannot fail). -/
def InMemoryCache.set (s : InMemoryCache) (key : String) (v : Value)
    (ttl : ℤ) (now : ℤ) : Bool × InMemoryCache :=
  (true, ⟨update s.cache key (some v), update s.expiry key (some (now + ttl))⟩)

/-- `InMemoryCache.clear`: empties both dicts, returning `True`. -/
def InMemoryCache.clear (_ : InMemoryCache) : Bool × InMemoryCache :=
  (true, ⟨fun _ => none, fun _ => none⟩)

/-- `InMemoryCache.exists`: `self.get(key) is not None` — note this calls
`get`, so it shares its lazy purge side effect. -/
def InMemoryCache.existsKey (s : InMemoryCache) (key : String) (now : ℤ) :
    Bool × InMemoryCache :=
  let (v, s') := s.get key now
  (v.isSome, s')

/-- `InMemoryCache.cleanup_expired`: deletes every key whose `_expiry` entry
is strictly before `now` (keys without an `_expiry` entry are untouched). -/
def InMemoryCache.cleanupExpired (s : InMemoryCache) (now : ℤ) :
    InMemoryCache :=
  ⟨fun k => match s.expiry k with
    | some e => if now > e then none else s.cache k
    | none => s.cache k,
   fun k => match s.expiry k with
    | some e => if now > e then none else s.expiry k
    | none => s.expiry k⟩

/-- `CacheManager` state over the default `InMemoryCache` backend, with its
`enabled` toggle. -/
structure CacheManager where
  backend : InMemoryCache
  enabled : Bool

/-- A fresh `CacheManager()`: empty in-memory backend, caching enabled. -/
def CacheManager.init : CacheManager :=
  ⟨InMemoryCache.empty, true⟩

/-- `CacheManager.get`: immediate miss while disabled (no backend call),
otherwise delegates to the backend. -/
def CacheManager.get (m : CacheManager) (key : String) (now : ℤ) :
    Option Value × CacheManager :=
  if m.enabled then
    let (v, b') := m.backend.get key now
    (v, ⟨b', m.enabled⟩)
  else (none, m)

/-- `CacheManager.set`: returns `False` while disabled (no backend call),
otherwise delegates. -/
def CacheManager.set (m : CacheManager) (key : String) (v : Value)
    (ttl : ℤ) (now : ℤ) : Bool × CacheManager :=
  if m.enabled then
    let (r, b') := m.backend.set key v ttl now
    (r, ⟨b', m.enabled⟩)
  else (false, m)

/-- `CacheManager.delete`: always delegates to the backend, regardless of
the enabled flag. -/
def CacheManager.delete (m : CacheManager) (key : String) :
    Bool × CacheManager :=
  let (r, b') := m.backend.delete key
  (r, ⟨b', m.enabled⟩)

/-- `CacheManager.clear`: always delegates to the backend. -/
def CacheManager.clear (m : CacheManager) : Bool × CacheManager :=
  let (r, b') := m.backend.clear
  (r, ⟨b', m.enabled⟩)

/-- `CacheManager.exists`: `False` while disabled, otherwise delegates. -/
def CacheManager.existsKey (m : CacheManager) (key : String) (now : ℤ) :
    Bool × CacheManager :=
  if m.enabled then
    let (r, b') := m.backend.existsKey key now
    (r, ⟨b', m.enabled⟩)
  else (false, m)

/-- `CacheManager.enable`. -/
def CacheManager.enable (m : CacheManager) : CacheManager :=
  ⟨m.backend, true⟩

/-- `CacheManager.disable`. -/
def CacheManager.disable (m : CacheManager) : CacheManager :=
  ⟨m.backend, false⟩

example : ((InMemoryCache.empty.set "k" (.int 3) 60 0).2.get "k" 5).1
    = some (.int 3) := by rfl

example : ((InMemoryCache.empty.set "k" (.int 3) 60 0).2.get "k" 61).1
    = none := by rfl

/-- A single-quote character as a string, for Python `repr` of strings. -/
def squo : String := String.mk [Char.ofNat 39]

mutual
/-- Python `repr` of a value (the default textual representation that `str`
falls back to for containers); `repr` of a string wraps it in single quotes.
Python would switch quote style or escape for strings containing quotes —
the claims never exercise that corner, so plain quoting is kept. -/
def pyRepr : Value → String
  | .int n => toString n
  | .bool true => "True"
  | .bool false => "False"
  | .str s => squo ++ s ++ squo
  | .list items => "[" ++ pyReprElems items ++ "]"
  | .dict entries => "\x7b" ++ pyReprEntries entries ++ "\x7d"
def pyReprElems : List Value → String
  | [] => ""
  | [x] => pyRepr x
  | x :: y :: xs => pyRepr x ++ ", " ++ pyReprElems (y :: xs)
def pyReprEntries : List (String × Value) → String
  | [] => ""
  | [(k, v)] => squo ++ k ++ squo ++ ": " ++ pyRepr v
  | (k, v) :: e :: es =>
    squo ++ k ++ squo ++ ": " ++ pyRepr v ++ ", " ++ pyReprEntries (e :: es)
end

/-- Python `str` of a value: the string itself for `str`, `repr` otherwise
(`str` and `repr` agree on ints, bools, lists and dicts).  `generate_key`
applies `str(arg)` on both branches of its `isinstance` test, so one
function covers both. -/
def pyStr : Value → String
  | .str s => s
  | .int n => pyRepr (.int n)
  | .bool b => pyRepr (.bool b)
  | .list items => pyRepr (.list items)
  | .dict entries => pyRepr (.dict entries)

/-- Two to the thirty-second power: the word size MD5 arithmetic wraps at. -/
def w32 : Nat := 4294967296

/-- The 64 MD5 round constants, `floor(abs(sin(i+1)) * 2^32)`. -/
def md5K : List Nat := [
  3614090360, 3905402710, 606105819, 3250441966, 4118548399, 1200080426, 2821735955, 4249261313,
  1770035416, 2336552879, 4294925233, 2304563134, 1804603682, 4254626195, 2792965006, 1236535329,
  4129170786, 3225465664, 643717713, 3921069994, 3593408605, 38016083, 3634488961, 3889429448,
  568446438, 3275163606, 4107603335, 1163531501, 2850285829, 4243563512, 1735328473, 2368359562,
  4294588738, 2272392833, 1839030562, 4259657740, 2763975236, 1272893353, 4139469664, 3200236656,
  681279174, 3936430074, 3572445317, 76029189, 3654602809, 3873151461, 530742520, 3299628645,
  4096336452, 1126891415, 2878612391, 4237533241, 1700485571, 2399980690, 4293915773, 2240044497,
  1873313359, 4264355552, 2734768916, 1309151649, 4149444226, 3174756917, 718787259, 3951481745]

/-- The 64 MD5 per-round left-rotation amounts. -/
def md5S : List Nat := [
  7, 12, 17, 22, 7, 12, 17, 22, 7, 12, 17, 22, 7, 12, 17, 22,
  5, 9, 14, 20, 5, 9, 14, 20, 5, 9, 14, 20, 5, 9, 14, 20,
  4, 11, 16, 23, 4, 11, 16, 23, 4, 11, 16, 23, 4, 11, 16, 23,
  6, 10, 15, 21, 6, 10, 15, 21, 6, 10, 15, 21, 6, 10, 15, 21]

/-- Left-rotate a 32-bit word by `s` places (the two shifted parts occupy
disjoint bit ranges, so their sum is their bitwise or). -/
def rotl32 (x s : Nat) : Nat := (x * 2 ^ s) % w32 + x / 2 ^ (32 - s)

/-- The `count` low-order bytes of `n`, little-endian. -/
def leBytes (n : Nat) : Nat → List Nat
  | 0 => []
  | c + 1 => n % 256 :: leBytes (n / 256) c

/-- MD5 padding: a `0x80` byte, zeros to 56 mod 64, then the bit length as
eight little-endian bytes. -/
def md5Pad (msg : List Nat) : List Nat :=
  let len := msg.length
  msg ++ 128 :: List.replicate ((119 - len % 64) % 64) 0 ++ leBytes (8 * len) 8

/-- Little-endian 32-bit words from a byte list (length a multiple of 4). -/
def toWords : List Nat → List Nat
  | b0 :: b1 :: b2 :: b3 :: rest =>
    (b0 + 256 * b1 + 65536 * b2 + 16777216 * b3) :: toWords rest
  | _ => []

/-- Split a word list into blocks of 16 (the input length is always a
multiple of 16 after padding; the final catch-all keeps the definition
total and structural). -/
def chunk16 : List Nat → List (List Nat)
  | [] => []
  | w0 :: w1 :: w2 :: w3 :: w4 :: w5 :: w6 :: w7 ::
    w8 :: w9 :: w10 :: w11 :: w12 :: w13 :: w14 :: w15 :: rest =>
    [w0, w1, w2, w3, w4, w5, w6, w7, w8, w9, w10, w11, w12, w13, w14, w15]
      :: chunk16 rest
  | short => [short]

/-- One MD5 round `i` on state `(a, b, c, d)` with message words `M`. -/
def md5Step (M : List Nat) (st : Nat × Nat × Nat × Nat) (i : Nat) :
    Nat × Nat × Nat × Nat :=
  let (a, b, c, d) := st
  let f :=
    if i < 16 then (b &&& c) ||| ((w32 - 1 - b) &&& d)
    else if i < 32 then (d &&& b) ||| ((w32 - 1 - d) &&& c)
    else if i < 48 then b ^^^ c ^^^ d
    else c ^^^ (b ||| (w32 - 1 - d))
  let g :=
    if i < 16 then i
    else if i < 32 then (5 * i + 1) % 16
    else if i < 48 then (3 * i + 5) % 16
    else (7 * i) % 16
  let tmp := (a + f + md5K.getD i 0 + M.getD g 0) % w32
  (d, (b + rotl32 tmp (md5S.getD i 0)) % w32, b, c)

/-- Process one 16-word block: 64 rounds, then add into the running state. -/
def md5Block (st : Nat × Nat × Nat × Nat) (M : List Nat) :
    Nat × Nat × Nat × Nat :=
  let r := (List.range 64).foldl (md5Step M) st
  ((st.1 + r.1) % w32, (st.2.1 + r.2.1) % w32,
   (st.2.2.1 + r.2.2.1) % w32, (st.2.2.2 + r.2.2.2) % w32)

/-- The 16 MD5 digest bytes of a byte message. -/
def md5Digest (msg : List Nat) : List Nat :=
  let chunks := chunk16 (toWords (md5Pad msg))
  let r := chunks.foldl md5Block (1732584193, 4023233417, 2562383102, 271733878)
  leBytes r.1 4 ++ leBytes r.2.1 4 ++ leBytes r.2.2.1 4 ++ leBytes r.2.2.2 4

/-- Lower-case hex digit for `n < 16`. -/
def hexDigit (n : Nat) : Char :=
  if n < 10 then Char.ofNat (48 + n) else Char.ofNat (87 + n)

/-- `hashlib.md5(...).hexdigest()`: the 32-character lower-case hex form. -/
def md5Hex (msg : List Nat) : String :=
  String.mk ((md5Digest msg).flatMap fun b => [hexDigit (b / 16), hexDigit (b % 16)])

/-- UTF-8 bytes of one character (`str.encode()` uses UTF-8). -/
def charUtf8 (c : Char) : List Nat :=
  let n := c.toNat
  if n < 128 then [n]
  else if n < 2048 then [192 + n / 64, 128 + n % 64]
  else if n < 65536 then [224 + n / 4096, 128 + n / 64 % 64, 128 + n % 64]
  else [240 + n / 262144, 128 + n / 4096 % 64, 128 + n / 64 % 64, 128 + n % 64]

/-- `s.encode()`: the UTF-8 bytes of a string. -/
def strBytes (s : String) : List Nat := s.data.flatMap charUtf8

/-- Lexicographic comparison of character lists by code point — how Python
compares strings. -/
def charListLe : List Char → List Char → Bool
  | [], _ => true
  | _ :: _, [] => false
  | c :: cs, d :: ds =>
    if c.toNat = d.toNat then charListLe cs ds
    else decide (c.toNat < d.toNat)

theorem charListLe_total : ∀ a b, charListLe a b = true ∨ charListLe b a = true
  | [], _ => .inl rfl
  | _ :: _, [] => .inr rfl
  | c :: cs, d :: ds => by
    by_cases h : c.toNat = d.toNat
    · have ih := charListLe_total cs ds
      simp only [charListLe, if_pos h, if_pos h.symm]
      exact ih
    · simp only [charListLe, if_neg h, if_neg (Ne.symm h), decide_eq_true_eq]
      omega

theorem charListLe_trans :
    ∀ a b c, charListLe a b = true → charListLe b c = true →
      charListLe a c = true
  | [], _, _, _, _ => rfl
  | _ :: _, [], _, h, _ => by simp [charListLe] at h
  | _ :: _, _ :: _, [], _, h => by simp [charListLe] at h
  | a :: as, b :: bs, c :: cs, h1, h2 => by
    simp only [charListLe] at h1 h2 ⊢
    by_cases hab : a.toNat = b.toNat <;> by_cases hbc : b.toNat = c.toNat
    · rw [if_pos hab] at h1
      rw [if_pos hbc] at h2
      rw [if_pos (hab.trans hbc)]
      exact charListLe_trans as bs cs h1 h2
    · rw [if_pos hab] at h1
      rw [if_neg hbc, decide_eq_true_eq] at h2
      rw [if_neg (by omega), decide_eq_true_eq]
      omega
    · rw [if_neg hab, decide_eq_true_eq] at h1
      rw [if_pos hbc] at h2
      rw [if_neg (by omega), decide_eq_true_eq]
      omega
    · rw [if_neg hab, decide_eq_true_eq] at h1
      rw [if_neg hbc, decide_eq_true_eq] at h2
      rw [if_neg (by omega), decide_eq_true_eq]
      omega

theorem charListLe_antisymm :
    ∀ a b, charListLe a b = true → charListLe b a = true → a = b
  | [], [], _, _ => rfl
  | [], _ :: _, _, h => by simp [charListLe] at h
  | _ :: _, [], h, _ => by simp [charListLe] at h
  | a :: as, b :: bs, h1, h2 => by
    simp only [charListLe] at h1 h2
    by_cases hab : a.toNat = b.toNat
    · have ha : a = b := by
        have h3 := Char.ofNat_toNat a
        rw [hab, Char.ofNat_toNat] at h3
        exact h3.symm
      rw [if_pos hab] at h1
      rw [if_pos hab.symm] at h2
      rw [ha, charListLe_antisymm as bs h1 h2]
    · rw [if_neg hab, decide_eq_true_eq] at h1
      rw [if_neg (Ne.symm hab), decide_eq_true_eq] at h2
      omega

/-- Ordering by keyword name, as Python `sorted(kwargs.items())` compares
tuples: the key is compared first, and keyword names are distinct, so the
value component never takes part. -/
def kwLE (a b : String × Value) : Prop := charListLe a.1.data b.1.data = true

instance : DecidableRel kwLE := fun a b =>
  inferInstanceAs (Decidable (charListLe a.1.data b.1.data = true))

instance : IsTotal (String × Value) kwLE :=
  ⟨fun a b => charListLe_total a.1.data b.1.data⟩

instance : IsTrans (String × Value) kwLE :=
  ⟨fun _ _ _ h1 h2 => charListLe_trans _ _ _ h1 h2⟩

/-- `sorted(kwargs.items())`: a stable sort by keyword name (insertion sort
denotes Python's stable sort). -/
def sortedKwargs (kwargs : List (String × Value)) : List (String × Value) :=
  List.insertionSort kwLE kwargs

/-- Python `":".join(parts)`. -/
def joinColon : List String → String
  | [] => ""
  | [x] => x
  | x :: y :: xs => x ++ ":" ++ joinColon (y :: xs)

/-- The colon-joined canonical string built by `CacheManager.generate_key`:
the prefix, then `str(arg)` for each positional argument in order, then
`"k=v"` for each keyword argument in sorted key order. -/
def canonicalKeyString (pre : String) (args : List Value)
    (kwargs : List (String × Value)) : String :=
  let keyParts := pre :: (args.map pyStr ++
    (sortedKwargs kwargs).map fun kv => kv.1 ++ "=" ++ pyStr kv.2)
  joinColon keyParts

/-- `CacheManager.generate_key`: the prefix joined to the MD5 hex digest of
the canonical string's UTF-8 bytes. -/
def generateKey (pre : String) (args : List Value)
    (kwargs : List (String × Value)) : String :=
  pre ++ ":" ++ md5Hex (strBytes (canonicalKeyString pre args kwargs))

example : canonicalKeyString "p" [.int 1, .int 2] [] = "p:1:2" := rfl

example : canonicalKeyString "f" [.int 1] [("b", .int 4), ("a", .int 3)]
    = "f:1:a=3:b=4" := by decide

example : generateKey "p" [.int 1, .int 2] [] ≠ generateKey "p" [.int 2, .int 1] [] := by
  decide

/-- State of a memoized operation: the (global) cache manager plus the number
of times the underlying operation has been invoked — the "counting
operation" of the spec's acceptance tests. -/
structure CachedState where
  mgr : CacheManager
  calls : Nat

/-- One call of a function wrapped by `@cached(ttl, key_prefix)`, at instant
`now`.  `f` denotes the underlying operation on the given arguments (`none`
is Python's `None`).  Mirrors the wrapper body: generate the key, try
`cache.get`, on a present non-null value return it without invoking `f`;
otherwise invoke `f` (counted), store the result only when it is not `None`,
and return it. -/
def cachedCall (ttl : ℤ) (pre : String)
    (f : List Value → List (String × Value) → Option Value)
    (args : List Value) (kwargs : List (String × Value)) (now : ℤ)
    (s : CachedState) : Option Value × CachedState :=
  let cacheKey := generateKey pre args kwargs
  let (cachedValue, mgr1) := s.mgr.get cacheKey now
  match cachedValue with
  | some v => (some v, ⟨mgr1, s.calls⟩)
  | none =>
    let result := f args kwargs
    match result with
    | some v =>
      let (_, mgr2) := mgr1.set cacheKey v ttl now
      (some v, ⟨mgr2, s.calls + 1⟩)
    | none => (none, ⟨mgr1, s.calls + 1⟩)

/-- `invalidate_cache(key_prefix, *args, **kwargs)`: recompute the key with
the manager's `generate_key` and delete it from the backend. -/
def invalidateCache (pre : String) (args : List Value)
    (kwargs : List (String × Value)) (m : CacheManager) : CacheManager :=
  (m.delete (generateKey pre args kwargs)).2

/-- One operation of the in-memory backend's public surface, with the
instant at which it runs (state-reading operations carry their `time.time()`
observation). -/
inductive MemOp where
  | get (key : String) (now : ℤ)
  | set (key : String) (v : Value) (ttl : ℤ) (now : ℤ)
  | delete (key : String)
  | clear
  | existsKey (key : String) (now : ℤ)
  | cleanupExpired (now : ℤ)

/-- Apply one backend operation, keeping only the state. -/
def MemOp.apply (s : InMemoryCache) : MemOp → InMemoryCache
  | .get key now => (s.get key now).2
  | .set key v ttl now => (s.set key v ttl now).2
  | .delete key => (s.delete key).2
  | .clear => s.clear.2
  | .existsKey key now => (s.existsKey key now).2
  | .cleanupExpired now => s.cleanupExpired now

/-- Run a sequence of backend operations from a given state. -/
def runOps (ops : List MemOp) (s : InMemoryCache) : InMemoryCache :=
  ops.foldl MemOp.apply s

/-- Decimal digit character for `n < 10`. -/
def decDigit (n : Nat) : Char := Char.ofNat (48 + n)

/-- Decimal digit characters of `n`, most significant first.  The first
argument is recursion fuel; `natChars` supplies enough. -/
def natDecChars : Nat → Nat → List Char
  | 0, _ => []
  | f + 1, n =>
    if n < 10 then [decDigit n]
    else natDecChars f (n / 10) ++ [decDigit (n % 10)]

/-- Decimal character form of a natural number. -/
def natChars (n : Nat) : List Char := natDecChars (n + 1) n

/-- Decimal character form of an integer: optional minus sign and digits —
how `json.dumps` writes a Python int. -/
def intDecChars (i : ℤ) : List Char :=
  (if i < 0 then ['-'] else []) ++ natChars i.natAbs

/-- JSON escape of one character, as `json.dumps` writes string contents:
two-character escapes for quote, backslash and the common control
characters, `\u00XX` for the remaining control characters, the character
itself otherwise.  (Python's default `ensure_ascii` also escapes characters
above `0x7E`; `json.loads` decodes the raw character identically, so the
codec behaviour is unchanged.) -/
def jsonEscapeChar (c : Char) : List Char :=
  if c = '"' then ['\\', '"']
  else if c = '\\' then ['\\', '\\']
  else if c = '\n' then ['\\', 'n']
  else if c = '\t' then ['\\', 't']
  else if c = '\r' then ['\\', 'r']
  else if c.toNat = 8 then ['\\', 'b']
  else if c.toNat = 12 then ['\\', 'f']
  else if c.toNat < 32 then
    ['\\', 'u', '0', '0', hexDigit (c.toNat / 16), hexDigit (c.toNat % 16)]
  else [c]

/-- A JSON string literal: quote, escaped contents, quote. -/
def strLitChars (s : String) : List Char :=
  '"' :: (s.data.flatMap jsonEscapeChar ++ ['"'])

mutual
/-- `json.dumps` with Python's default separators (`", "` between items,
`": "` after keys), as a character list. -/
def jsonDumpsChars : Value → List Char
  | .int n => intDecChars n
  | .bool true => ['t', 'r', 'u', 'e']
  | .bool false => ['f', 'a', 'l', 's', 'e']
  | .str s => strLitChars s
  | .list items => '[' :: (jsonDumpsElems items ++ [']'])
  | .dict entries => '\x7b' :: (jsonDumpsEntries entries ++ ['\x7d'])
def jsonDumpsElems : List Value → List Char
  | [] => []
  | [x] => jsonDumpsChars x
  | x :: y :: xs => jsonDumpsChars x ++ ',' :: ' ' :: jsonDumpsElems (y :: xs)
def jsonDumpsEntries : List (String × Value) → List Char
  | [] => []
  | [(k, v)] => strLitChars k ++ ':' :: ' ' :: jsonDumpsChars v
  | (k, v) :: e :: es =>
    strLitChars k ++ ':' :: ' ' :: jsonDumpsChars v ++
      ',' :: ' ' :: jsonDumpsEntries (e :: es)
end

/-- `json.dumps(value)`. -/
def jsonDumps (v : Value) : String := String.mk (jsonDumpsChars v)

/-- The whitespace characters `json.loads` skips between tokens. -/
def isJsonWs (c : Char) : Bool := c = ' ' || c = '\n' || c = '\t' || c = '\r'

/-- Drop leading JSON whitespace. -/
def wsSkip : List Char → List Char
  | [] => []
  | c :: cs => if isJsonWs c then wsSkip cs else c :: cs

/-- ASCII decimal digit test. -/
def isDigitC (c : Char) : Bool := 48 ≤ c.toNat && c.toNat ≤ 57

/-- Split a maximal run of leading digits from the rest. -/
def grabDigits : List Char → List Char × List Char
  | [] => ([], [])
  | c :: cs =>
    if isDigitC c then
      let (ds, r) := grabDigits cs
      (c :: ds, r)
    else ([], c :: cs)

/-- Numeric value of a digit run. -/
def digitsToNat (ds : List Char) : Nat :=
  ds.foldl (fun a c => 10 * a + (c.toNat - 48)) 0

/-- Parse a JSON integer token: an optional minus sign and a nonempty digit
run.  (A fractional or exponent part would make the surrounding parse fail,
as `Value` carries no floats and `json.dumps` of a cached value never
produces one.) -/
def parseIntTok : List Char → Option (ℤ × List Char)
  | [] => none
  | c :: r =>
    if c = '-' then
      let (ds, rest) := grabDigits r
      if ds = [] then none else some (-(digitsToNat ds : ℤ), rest)
    else
      let (ds, rest) := grabDigits (c :: r)
      if ds = [] then none else some ((digitsToNat ds : ℤ), rest)

/-- Value of one hex digit, upper or lower case. -/
def hexNibble (c : Char) : Option Nat :=
  if 48 ≤ c.toNat ∧ c.toNat ≤ 57 then some (c.toNat - 48)
  else if 97 ≤ c.toNat ∧ c.toNat ≤ 102 then some (c.toNat - 87)
  else if 65 ≤ c.toNat ∧ c.toNat ≤ 70 then some (c.toNat - 55)
  else none

/-- The character a two-character JSON escape stands for. -/
def escDecode (c : Char) : Option Char :=
  if c = '"' then some '"'
  else if c = '\\' then some '\\'
  else if c = '/' then some '/'
  else if c = 'n' then some '\n'
  else if c = 't' then some '\t'
  else if c = 'r' then some '\r'
  else if c = 'b' then some (Char.ofNat 8)
  else if c = 'f' then some (Char.ofNat 12)
  else none

/-- Consume one escape sequence after a backslash: `uXXXX`, or a
two-character escape; the decoded character and the remaining input. -/
def escTake : List Char → Option (Char × List Char)
  | 'u' :: a :: b :: g :: d :: rest =>
    match hexNibble a, hexNibble b, hexNibble g, hexNibble d with
    | some wa, some wb, some wc, some wd =>
      some (Char.ofNat (4096 * wa + 256 * wb + 16 * wc + wd), rest)
    | _, _, _, _ => none
  | e :: rest =>
    match escDecode e with
    | some ch => some (ch, rest)
    | none => none
  | [] => none

/-- Parse a JSON string body after its opening quote, accumulating decoded
characters; strict mode rejects raw control characters, as Python does.
The fuel argument (one unit per source character; length plus one always
suffices) keeps the recursion structural. -/
def parseStrBody : Nat → List Char → List Char → Option (String × List Char)
  | 0, _, _ => none
  | _ + 1, _, [] => none
  | f + 1, acc, c :: rest =>
    if c = '"' then some (String.mk acc.reverse, rest)
    else if c = '\\' then
      match escTake rest with
      | some (ch, rest') => parseStrBody f (ch :: acc) rest'
      | none => none
    else if c.toNat < 32 then none
    else parseStrBody f (c :: acc) rest

mutual
/-- The recursive-descent heart of `json.loads` over the grammar `Value`
covers (`json.dumps` of a cached value emits nothing outside it).  Fuel
makes the recursion structural; one unit per grammar step, so input length
plus one always suffices. -/
def parseVal : Nat → List Char → Option (Value × List Char)
  | 0, _ => none
  | f + 1, cs =>
    match wsSkip cs with
    | [] => none
    | c :: r =>
      if c = 't' then
        match r with
        | 'r' :: 'u' :: 'e' :: r' => some (.bool true, r')
        | _ => none
      else if c = 'f' then
        match r with
        | 'a' :: 'l' :: 's' :: 'e' :: r' => some (.bool false, r')
        | _ => none
      else if c = '"' then
        match parseStrBody (r.length + 1) [] r with
        | some (s, r') => some (.str s, r')
        | none => none
      else if c = '[' then
        match wsSkip r with
        | [] => none
        | d :: r' =>
          if d = ']' then some (.list [], r')
          else
            match parseElems f (d :: r') with
            | some (vs, r'') => some (.list vs, r'')
            | none => none
      else if c = '\x7b' then
        match wsSkip r with
        | [] => none
        | d :: r' =>
          if d = '\x7d' then some (.dict [], r')
          else
            match parseEntries f (d :: r') with
            | some (ms, r'') => some (.dict ms, r'')
            | none => none
      else
        match parseIntTok (c :: r) with
        | some (n, r') => some (.int n, r')
        | none => none
/-- One or more comma-separated array elements up to the closing bracket. -/
def parseElems : Nat → List Char → Option (List Value × List Char)
  | 0, _ => none
  | f + 1, cs =>
    match parseVal f cs with
    | none => none
    | some (v, r) =>
      match wsSkip r with
      | [] => none
      | d :: r' =>
        if d = ',' then
          match parseElems f (wsSkip r') with
          | some (vs, r'') => some (v :: vs, r'')
          | none => none
        else if d = ']' then some ([v], r')
        else none
/-- One or more `"key": value` object entries up to the closing brace. -/
def parseEntries : Nat → List Char → Option (List (String × Value) × List Char)
  | 0, _ => none
  | f + 1, cs =>
    match wsSkip cs with
    | [] => none
    | c :: r =>
      if c = '"' then
        match parseStrBody (r.length + 1) [] r with
        | none => none
        | some (k, r1) =>
          match wsSkip r1 with
          | [] => none
          | d :: r2 =>
            if d = ':' then
              match parseVal f r2 with
              | none => none
              | some (v, r3) =>
                match wsSkip r3 with
                | [] => none
                | e :: r4 =>
                  if e = ',' then
                    match parseEntries f (wsSkip r4) with
                    | some (ms, r5) => some ((k, v) :: ms, r5)
                    | none => none
                  else if e = '\x7d' then some ([(k, v)], r4)
                  else none
            else none
      else none
end

/-- `json.loads(s)`: parse one value, allow trailing whitespace only;
`none` is any `JSONDecodeError` (the `RedisCache` caller turns it into a
miss). -/
def jsonLoads (s : String) : Option Value :=
  match parseVal (s.data.length + 1) s.data with
  | some (v, r) => if wsSkip r = [] then some v else none
  | none => none

/-- The `RedisCache` backend as its Redis server state: each key maps to
the stored serialized string and its absolute expiry instant (`SETEX`
stores value and TTL together). -/
structure RedisCache where
  store : String → Option (String × ℤ)

/-- A Redis database with no keys. -/
def RedisCache.empty : RedisCache := ⟨fun _ => none⟩

/-- The live serialized value at a key: Redis treats a key whose expiry has
been reached as nonexistent for every command. -/
def RedisCache.activeRaw (s : RedisCache) (key : String) (now : ℤ) :
    Option String :=
  match s.store key with
  | some (v, e) => if now < e then some v else none
  | none => none

/-- `RedisCache.get`: `GET` then `json.loads`; a nil reply or a decode
failure both yield `None` (the `except` clause). -/
def RedisCache.get (s : RedisCache) (key : String) (now : ℤ) :
    Option Value :=
  match s.activeRaw key now with
  | some raw => jsonLoads raw
  | none => none

/-- `RedisCache.set`: `SETEX key ttl json.dumps(value)`.  `SETEX` rejects a
non-positive ttl with an error, which the `except` clause turns into
`False`; otherwise the serialized value is stored with expiry `now + ttl`
and `True` returned. -/
def RedisCache.set (s : RedisCache) (key : String) (v : Value) (ttl : ℤ)
    (now : ℤ) : Bool × RedisCache :=
  if ttl ≤ 0 then (false, s)
  else (true, ⟨update s.store key (some (jsonDumps v, now + ttl))⟩)

/-- `RedisCache.delete`: `bool(DEL key)` — `DEL` returns the number of keys
removed, `0` for an absent (or already expired) key, so the method returns
`True` exactly when the key was live. -/
def RedisCache.delete (s : RedisCache) (key : String) (now : ℤ) :
    Bool × RedisCache :=
  ((s.activeRaw key now).isSome, ⟨update s.store key none⟩)

/-- `RedisCache.clear`: `FLUSHDB`, then `True`. -/
def RedisCache.clear (_ : RedisCache) : Bool × RedisCache :=
  (true, ⟨fun _ => none⟩)

/-- `RedisCache.exists`: `bool(EXISTS key)` — true exactly for a live key;
no state change and no value returned. -/
def RedisCache.existsKey (s : RedisCache) (key : String) (now : ℤ) : Bool :=
  (s.activeRaw key now).isSome

theorem natDecChars_fuel (n : Nat) : ∀ f g, n < f → n < g →
    natDecChars f n = natDecChars g n := by
  induction n using Nat.strongRecOn with
  | _ n ih =>
    intro f g hf hg
    match f, g with
    | f' + 1, g' + 1 =>
      by_cases h10 : n < 10
      · simp [natDecChars, h10]
      · have hlt : n / 10 < n := Nat.div_lt_self (by omega) (by omega)
        simp only [natDecChars, if_neg h10]
        rw [ih (n / 10) hlt f' g' (by omega) (by omega)]

theorem natChars_unfold (n : Nat) :
    natChars n = (if n < 10 then [] else natChars (n / 10)) ++ [decDigit (n % 10)] := by
  have hbody : natChars n
      = if n < 10 then [decDigit n] else natDecChars n (n / 10) ++ [decDigit (n % 10)] := rfl
  by_cases h10 : n < 10
  · rw [hbody, if_pos h10, if_pos h10, Nat.mod_eq_of_lt h10]
    rfl
  · rw [hbody, if_neg h10, if_neg h10,
      natDecChars_fuel (n / 10) n (n / 10 + 1)
        (Nat.div_lt_self (by omega) (by omega)) (Nat.lt_succ_self _)]
    rfl

theorem isDigitC_decDigit (d : Nat) (h : d < 10) : isDigitC (decDigit d) = true := by
  interval_cases d <;> decide

theorem toNat_decDigit (d : Nat) (h : d < 10) : (decDigit d).toNat = 48 + d := by
  interval_cases d <;> decide

theorem natChars_digits (n : Nat) : ∀ c ∈ natChars n, isDigitC c = true := by
  induction n using Nat.strongRecOn with
  | _ n ih =>
    rw [natChars_unfold]
    intro c hc
    rcases List.mem_append.mp hc with h | h
    · by_cases h10 : n < 10
      · simp [h10] at h
      · rw [if_neg h10] at h
        exact ih (n / 10) (Nat.div_lt_self (by omega) (by omega)) c h
    · rw [List.mem_singleton] at h
      exact h ▸ isDigitC_decDigit _ (Nat.mod_lt _ (by omega))

theorem natChars_cons (n : Nat) :
    ∃ c t, natChars n = c :: t ∧ isDigitC c = true := by
  match h : natChars n with
  | [] =>
    rw [natChars_unfold] at h
    rcases List.append_eq_nil.mp h with ⟨_, h2⟩
    exact absurd h2 (by simp)
  | c :: t =>
    exact ⟨c, t, rfl, natChars_digits n c (h ▸ List.mem_cons_self ..)⟩

theorem digitsToNat_append (ds : List Char) (c : Char) :
    digitsToNat (ds ++ [c]) = 10 * digitsToNat ds + (c.toNat - 48) := by
  simp [digitsToNat, List.foldl_append]

theorem digitsToNat_natChars (n : Nat) : digitsToNat (natChars n) = n := by
  induction n using Nat.strongRecOn with
  | _ n ih =>
    rw [natChars_unfold]
    by_cases h10 : n < 10
    · rw [if_pos h10]
      simp only [List.nil_append, digitsToNat, List.foldl_cons, List.foldl_nil]
      rw [toNat_decDigit _ (Nat.mod_lt _ (by omega))]
      omega
    · rw [if_neg h10, digitsToNat_append,
        ih (n / 10) (Nat.div_lt_self (by omega) (by omega)),
        toNat_decDigit _ (Nat.mod_lt _ (by omega))]
      omega

/-- Inputs that cannot extend a decimal token: empty, or headed by a
non-digit.  Every delimiter `json.dumps` can emit after a number
(`,`, `]`, the closing brace, end of input) qualifies. -/
def intStop : List Char → Bool
  | [] => true
  | c :: _ => !isDigitC c

theorem grabDigits_stop (rest : List Char) (h : intStop rest = true) :
    grabDigits rest = ([], rest) := by
  match rest with
  | [] => rfl
  | c :: t =>
    simp only [intStop, Bool.not_eq_true'] at h
    simp [grabDigits, h]

theorem grabDigits_run (ds : List Char) (hds : ∀ c ∈ ds, isDigitC c = true)
    (rest : List Char) (hrest : intStop rest = true) :
    grabDigits (ds ++ rest) = (ds, rest) := by
  induction ds with
  | nil => simpa using grabDigits_stop rest hrest
  | cons c t ih =>
    have hc : isDigitC c = true := hds c (by simp)
    have ht := ih fun x hx => hds x (by simp [hx])
    simp [grabDigits, hc, ht]

theorem digit_ne_minus (c : Char) (h : isDigitC c = true) : c ≠ '-' := by
  intro hc
  rw [hc] at h
  exact absurd h (by decide)

theorem parseIntTok_neg (r : List Char) :
    parseIntTok ('-' :: r) =
      (if (grabDigits r).1 = [] then none
       else some (-(digitsToNat (grabDigits r).1 : ℤ), (grabDigits r).2)) := rfl

theorem parseIntTok_nonneg (c : Char) (r : List Char) (h : c ≠ '-') :
    parseIntTok (c :: r) =
      (if (grabDigits (c :: r)).1 = [] then none
       else some ((digitsToNat (grabDigits (c :: r)).1 : ℤ),
         (grabDigits (c :: r)).2)) := by
  simp only [parseIntTok, if_neg h]

theorem parseIntTok_roundtrip (i : ℤ) (rest : List Char)
    (hrest : intStop rest = true) :
    parseIntTok (intDecChars i ++ rest) = some (i, rest) := by
  obtain ⟨c, t, hnc, hcd⟩ := natChars_cons i.natAbs
  have hgrab : grabDigits (natChars i.natAbs ++ rest) = (natChars i.natAbs, rest) :=
    grabDigits_run _ (natChars_digits _) _ hrest
  have hne : natChars i.natAbs ≠ [] := by
    rw [hnc]
    exact List.cons_ne_nil c t
  by_cases hneg : i < 0
  · have harg : intDecChars i ++ rest = '-' :: (natChars i.natAbs ++ rest) := by
      simp [intDecChars, hneg]
    rw [harg, parseIntTok_neg, hgrab, if_neg hne, digitsToNat_natChars]
    have hval : -(i.natAbs : ℤ) = i := by omega
    rw [hval]
  · have harg : intDecChars i ++ rest = c :: (t ++ rest) := by
      simp [intDecChars, hneg, hnc]
    rw [harg, parseIntTok_nonneg c (t ++ rest) (digit_ne_minus c hcd),
      show c :: (t ++ rest) = natChars i.natAbs ++ rest from by
        rw [hnc, List.cons_append],
      hgrab, if_neg hne, digitsToNat_natChars]
    have hval : (i.natAbs : ℤ) = i := by omega
    rw [hval]

theorem hexNibble_hexDigit : ∀ d < 16, hexNibble (hexDigit d) = some d := by decide

theorem escTake_u (hi lo : Nat) (hhi : hi < 16) (hlo : lo < 16) (rest : List Char) :
    escTake ('u' :: '0' :: '0' :: hexDigit hi :: hexDigit lo :: rest)
      = some (Char.ofNat (16 * hi + lo), rest) := by
  simp only [escTake, hexNibble_hexDigit hi hhi, hexNibble_hexDigit lo hlo,
    show hexNibble '0' = some 0 from rfl]
  norm_num

theorem parseStrBody_escape (f : Nat) (c : Char) (acc rest : List Char) :
    parseStrBody (f + 1) acc (jsonEscapeChar c ++ rest)
      = parseStrBody f (c :: acc) rest := by
  by_cases h1 : c = '"'
  · subst h1; rfl
  by_cases h2 : c = '\\'
  · subst h2; rfl
  by_cases h3 : c = '\n'
  · subst h3; rfl
  by_cases h4 : c = '\t'
  · subst h4; rfl
  by_cases h5 : c = '\r'
  · subst h5; rfl
  by_cases h6 : c.toNat = 8
  · have hc : c = Char.ofNat 8 := by rw [← Char.ofNat_toNat c, h6]
    subst hc; rfl
  by_cases h7 : c.toNat = 12
  · have hc : c = Char.ofNat 12 := by rw [← Char.ofNat_toNat c, h7]
    subst hc; rfl
  by_cases h8 : c.toNat < 32
  · have hesc : jsonEscapeChar c
        = ['\\', 'u', '0', '0', hexDigit (c.toNat / 16), hexDigit (c.toNat % 16)] := by
      simp [jsonEscapeChar, h1, h2, h3, h4, h5, h6, h7, h8]
    rw [hesc]
    show (match escTake ('u' :: '0' :: '0' :: hexDigit (c.toNat / 16)
            :: hexDigit (c.toNat % 16) :: rest) with
          | some (ch, rest') => parseStrBody f (ch :: acc) rest'
          | none => none) = parseStrBody f (c :: acc) rest
    rw [escTake_u (c.toNat / 16) (c.toNat % 16) (by omega) (by omega)]
    have harith : 16 * (c.toNat / 16) + c.toNat % 16 = c.toNat := by omega
    simp only [harith, Char.ofNat_toNat]
  · have hesc : jsonEscapeChar c = [c] := by
      simp [jsonEscapeChar, h1, h2, h3, h4, h5, h6, h7, h8]
    rw [hesc, List.singleton_append]
    simp only [parseStrBody, if_neg h1, if_neg h2, if_neg h8]

theorem parseStrBody_flatMap (cs : List Char) : ∀ f acc rest, cs.length < f →
    parseStrBody f acc (cs.flatMap jsonEscapeChar ++ '"' :: rest)
      = some (String.mk (acc.reverse ++ cs), rest) := by
  induction cs with
  | nil =>
    intro f acc rest hf
    match f with
    | f + 1 => simp [parseStrBody]
  | cons c cs ih =>
    intro f acc rest hf
    match f with
    | f + 1 =>
      rw [List.flatMap_cons, List.append_assoc, parseStrBody_escape,
        ih f (c :: acc) rest (by simp at hf ⊢; omega)]
      simp

theorem parseStr_roundtrip (s : String) (f : Nat) (rest : List Char)
    (hf : s.data.length < f) :
    parseStrBody f [] (s.data.flatMap jsonEscapeChar ++ '"' :: rest)
      = some (s, rest) := by
  rw [parseStrBody_flatMap s.data f [] rest hf]
  rfl

theorem jsonEscapeChar_length_pos (c : Char) : 1 ≤ (jsonEscapeChar c).length := by
  unfold jsonEscapeChar
  repeat' split
  all_goals simp

theorem length_le_flatMap_escape (cs : List Char) :
    cs.length ≤ (cs.flatMap jsonEscapeChar).length := by
  induction cs with
  | nil => simp
  | cons c cs ih =>
    rw [List.flatMap_cons, List.length_append, List.length_cons]
    have h1 := jsonEscapeChar_length_pos c
    omega

example : jsonLoads (jsonDumps (.dict [("a", .list [.int 1, .str "x"])]))
    = some (.dict [("a", .list [.int 1, .str "x"])]) := by rfl

theorem wsSkip_cons (c : Char) (t : List Char) (h : isJsonWs c = false) :
    wsSkip (c :: t) = c :: t := by
  simp [wsSkip, h]

theorem isJsonWs_digit (c : Char) (h : isDigitC c = true) : isJsonWs c = false := by
  by_contra hw
  rw [Bool.not_eq_false] at hw
  simp only [isJsonWs, Bool.or_eq_true, decide_eq_true_eq] at hw
  rcases hw with ((rfl | rfl) | rfl) | rfl <;> exact absurd h (by decide)

theorem digit_not_special (c : Char) (h : isDigitC c = true) :
    c ≠ ']' ∧ c ≠ 't' ∧ c ≠ 'f' ∧ c ≠ '"' ∧ c ≠ '[' ∧ c ≠ '\x7b' := by
  refine ⟨?_, ?_, ?_, ?_, ?_, ?_⟩ <;> (intro hc; subst hc; exact absurd h (by decide))

theorem dumpsChars_head (v : Value) :
    ∃ c t, jsonDumpsChars v = c :: t ∧ isJsonWs c = false ∧ c ≠ ']' := by
  cases v with
  | int n =>
    by_cases hneg : n < 0
    · exact ⟨'-', natChars n.natAbs, by simp [jsonDumpsChars, intDecChars, hneg],
        by decide, by decide⟩
    · obtain ⟨c, t, hnc, hcd⟩ := natChars_cons n.natAbs
      exact ⟨c, t, by simp [jsonDumpsChars, intDecChars, hneg, hnc],
        isJsonWs_digit c hcd, (digit_not_special c hcd).1⟩
  | bool b =>
    cases b with
    | false => exact ⟨'f', _, rfl, by decide, by decide⟩
    | true => exact ⟨'t', _, rfl, by decide, by decide⟩
  | str s => exact ⟨'"', _, rfl, by decide, by decide⟩
  | list items => exact ⟨'[', _, rfl, by decide, by decide⟩
  | dict entries => exact ⟨'\x7b', _, rfl, by decide, by decide⟩

theorem dumpsElems_eq (e : Value) (es : List Value) :
    ∃ t, jsonDumpsElems (e :: es) = jsonDumpsChars e ++ t := by
  cases es with
  | nil => exact ⟨[], by simp [jsonDumpsElems]⟩
  | cons y ys => exact ⟨',' :: ' ' :: jsonDumpsElems (y :: ys), rfl⟩

theorem parseVal_boolT (f : Nat) (rest : List Char) :
    parseVal (f + 1) ('t' :: 'r' :: 'u' :: 'e' :: rest) = some (.bool true, rest) := rfl

theorem parseVal_boolF (f : Nat) (rest : List Char) :
    parseVal (f + 1) ('f' :: 'a' :: 'l' :: 's' :: 'e' :: rest) = some (.bool false, rest) := rfl

theorem parseVal_strStep (f : Nat) (r : List Char) :
    parseVal (f + 1) ('"' :: r)
      = (match parseStrBody (r.length + 1) [] r with
         | some (s, r') => some (.str s, r')
         | none => none) := rfl

theorem parseVal_emptyList (f : Nat) (rest : List Char) :
    parseVal (f + 1) ('[' :: ']' :: rest) = some (.list [], rest) := rfl

theorem parseVal_emptyDict (f : Nat) (rest : List Char) :
    parseVal (f + 1) ('\x7b' :: '\x7d' :: rest) = some (.dict [], rest) := rfl

theorem parseVal_listStep (f : Nat) (d : Char) (r' : List Char)
    (hws : isJsonWs d = false) (hd : d ≠ ']') :
    parseVal (f + 1) ('[' :: d :: r')
      = (match parseElems f (d :: r') with
         | some (vs, r'') => some (.list vs, r'')
         | none => none) := by
  show (match wsSkip (d :: r') with
        | [] => none
        | e :: r'' =>
          if e = ']' then some (Value.list [], r'')
          else
            match parseElems f (e :: r'') with
            | some (vs, r''') => some (Value.list vs, r''')
            | none => none) = _
  rw [wsSkip_cons d r' hws]
  simp only [if_neg hd]

theorem parseVal_dictStep (f : Nat) (d : Char) (r' : List Char)
    (hws : isJsonWs d = false) (hd : d ≠ '\x7d') :
    parseVal (f + 1) ('\x7b' :: d :: r')
      = (match parseEntries f (d :: r') with
         | some (ms, r'') => some (.dict ms, r'')
         | none => none) := by
  show (match wsSkip (d :: r') with
        | [] => none
        | e :: r'' =>
          if e = '\x7d' then some (Value.dict [], r'')
          else
            match parseEntries f (e :: r'') with
            | some (ms, r''') => some (Value.dict ms, r''')
            | none => none) = _
  rw [wsSkip_cons d r' hws]
  simp only [if_neg hd]

theorem parseVal_default (f : Nat) (c : Char) (t : List Char)
    (hws : isJsonWs c = false) (h1 : c ≠ 't') (h2 : c ≠ 'f') (h3 : c ≠ '"')
    (h4 : c ≠ '[') (h5 : c ≠ '\x7b') :
    parseVal (f + 1) (c :: t)
      = (match parseIntTok (c :: t) with
         | some (n, r') => some (.int n, r')
         | none => none) := by
  simp only [parseVal, wsSkip_cons c t hws, if_neg h1, if_neg h2, if_neg h3,
    if_neg h4, if_neg h5]

theorem wsSkip_space (L : List Char) : wsSkip (' ' :: L) = wsSkip L := by
  simp [wsSkip, isJsonWs]

theorem parseVal_ws (f : Nat) (L : List Char) :
    parseVal f (' ' :: L) = parseVal f L := by
  cases f with
  | zero => rfl
  | succ f =>
    simp only [parseVal]
    rw [wsSkip_space]

theorem intStop_cons (c : Char) (t : List Char) (h : isDigitC c = false) :
    intStop (c :: t) = true := by
  simp [intStop, h]

theorem parseStr_roundtrip_auto (s : String) (X : List Char) :
    parseStrBody ((s.data.flatMap jsonEscapeChar ++ '"' :: X).length + 1) []
      (s.data.flatMap jsonEscapeChar ++ '"' :: X) = some (s, X) := by
  apply parseStr_roundtrip
  have h1 := length_le_flatMap_escape s.data
  simp only [List.length_append, List.length_cons]
  omega

theorem dumpsEntries_head (kv : String × Value) (ms : List (String × Value)) :
    ∃ t2, jsonDumpsEntries (kv :: ms) = '"' :: t2 := by
  match kv, ms with
  | (k, v), [] => exact ⟨_, rfl⟩
  | (k, v), kv2 :: ms' => exact ⟨_, rfl⟩

theorem wsSkip_elems (x : Value) (xs : List Value) (X : List Char) :
    wsSkip (jsonDumpsElems (x :: xs) ++ X) = jsonDumpsElems (x :: xs) ++ X := by
  obtain ⟨c1, t1, hx, hws1, -⟩ := dumpsChars_head x
  obtain ⟨tX, hex⟩ := dumpsElems_eq x xs
  rw [hex, hx]
  simp only [List.cons_append, List.append_assoc]
  rw [wsSkip_cons _ _ hws1]

theorem wsSkip_entries (kv : String × Value) (ms : List (String × Value))
    (X : List Char) :
    wsSkip (jsonDumpsEntries (kv :: ms) ++ X) = jsonDumpsEntries (kv :: ms) ++ X := by
  obtain ⟨t2, hh⟩ := dumpsEntries_head kv ms
  rw [hh, List.cons_append, wsSkip_cons _ _ (by decide)]

mutual
theorem rtVal : ∀ (v : Value) (fuel : Nat) (rest : List Char),
    (jsonDumpsChars v).length < fuel → intStop rest = true →
    parseVal fuel (jsonDumpsChars v ++ rest) = some (v, rest)
  | .int n, fuel, rest, hf, hr => by
    cases fuel with
    | zero => exact absurd hf (Nat.not_lt_zero _)
    | succ f =>
      have hfacts : ∃ c t, intDecChars n = c :: t ∧ isJsonWs c = false ∧
          c ≠ 't' ∧ c ≠ 'f' ∧ c ≠ '"' ∧ c ≠ '[' ∧ c ≠ '\x7b' := by
        by_cases hneg : n < 0
        · refine ⟨'-', natChars n.natAbs, by simp [intDecChars, hneg],
            ?_, ?_, ?_, ?_, ?_, ?_⟩ <;> decide
        · obtain ⟨c, t, hnc, hcd⟩ := natChars_cons n.natAbs
          obtain ⟨-, hne1, hne2, hne3, hne4, hne5⟩ := digit_not_special c hcd
          exact ⟨c, t, by simp [intDecChars, hneg, hnc], isJsonWs_digit c hcd,
            hne1, hne2, hne3, hne4, hne5⟩
      obtain ⟨c, t, hv, hws, h1, h2, h3, h4, h5⟩ := hfacts
      have harg : jsonDumpsChars (.int n) ++ rest = c :: (t ++ rest) := by
        show intDecChars n ++ rest = _
        rw [hv, List.cons_append]
      rw [harg, parseVal_default f c (t ++ rest) hws h1 h2 h3 h4 h5,
        show c :: (t ++ rest) = intDecChars n ++ rest from by rw [hv, List.cons_append],
        parseIntTok_roundtrip n rest hr]
  | .bool true, fuel, rest, hf, _ => by
    cases fuel with
    | zero => exact absurd hf (Nat.not_lt_zero _)
    | succ f => exact parseVal_boolT f rest
  | .bool false, fuel, rest, hf, _ => by
    cases fuel with
    | zero => exact absurd hf (Nat.not_lt_zero _)
    | succ f => exact parseVal_boolF f rest
  | .str s, fuel, rest, hf, _ => by
    cases fuel with
    | zero => exact absurd hf (Nat.not_lt_zero _)
    | succ f =>
      have harg : jsonDumpsChars (.str s) ++ rest
          = '"' :: (s.data.flatMap jsonEscapeChar ++ '"' :: rest) := by
        show strLitChars s ++ rest = _
        simp [strLitChars]
      rw [harg, parseVal_strStep, parseStr_roundtrip_auto s rest]
  | .list [], fuel, rest, hf, _ => by
    cases fuel with
    | zero => exact absurd hf (Nat.not_lt_zero _)
    | succ f => exact parseVal_emptyList f rest
  | .list (e :: es), fuel, rest, hf, _ => by
    cases fuel with
    | zero => exact absurd hf (Nat.not_lt_zero _)
    | succ f =>
      obtain ⟨c0, t0, he, hws0, hbr0⟩ := dumpsChars_head e
      obtain ⟨tE, hel⟩ := dumpsElems_eq e es
      have hfe : (jsonDumpsElems (e :: es)).length + 1 < f := by
        rw [show jsonDumpsChars (.list (e :: es))
            = '[' :: (jsonDumpsElems (e :: es) ++ [']']) from rfl] at hf
        simp only [List.length_cons, List.length_append, List.length_nil] at hf
        omega
      have hcons : jsonDumpsElems (e :: es) ++ ']' :: rest
          = c0 :: (t0 ++ (tE ++ ']' :: rest)) := by
        rw [hel, he]
        simp [List.append_assoc]
      have harg : jsonDumpsChars (.list (e :: es)) ++ rest
          = '[' :: (c0 :: (t0 ++ (tE ++ ']' :: rest))) := by
        rw [← hcons]
        show ('[' :: (jsonDumpsElems (e :: es) ++ [']'])) ++ rest = _
        simp [List.append_assoc]
      rw [harg, parseVal_listStep f c0 _ hws0 hbr0, ← hcons,
        rtElems e es f rest hfe]
  | .dict [], fuel, rest, hf, _ => by
    cases fuel with
    | zero => exact absurd hf (Nat.not_lt_zero _)
    | succ f => exact parseVal_emptyDict f rest
  | .dict (kv :: ms), fuel, rest, hf, _ => by
    cases fuel with
    | zero => exact absurd hf (Nat.not_lt_zero _)
    | succ f =>
      have hfe : (jsonDumpsEntries (kv :: ms)).length + 1 < f := by
        rw [show jsonDumpsChars (.dict (kv :: ms))
            = '\x7b' :: (jsonDumpsEntries (kv :: ms) ++ ['\x7d']) from by
              match kv with
              | (k, v) => rfl] at hf
        simp only [List.length_cons, List.length_append, List.length_nil] at hf
        omega
      obtain ⟨t2, hh⟩ := dumpsEntries_head kv ms
      have hback : '"' :: (t2 ++ '\x7d' :: rest)
          = jsonDumpsEntries (kv :: ms) ++ '\x7d' :: rest := by
        rw [hh, List.cons_append]
      have harg : jsonDumpsChars (.dict (kv :: ms)) ++ rest
          = '\x7b' :: ('"' :: (t2 ++ '\x7d' :: rest)) := by
        rw [hback]
        rw [show jsonDumpsChars (.dict (kv :: ms))
            = '\x7b' :: (jsonDumpsEntries (kv :: ms) ++ ['\x7d']) from by
              match kv with
              | (k, v) => rfl]
        simp [List.append_assoc]
      rw [harg, parseVal_dictStep f '"' _ (by decide) (by decide), hback,
        rtEntries kv ms f rest hfe]
  termination_by v _ _ _ _ => sizeOf v
theorem rtElems : ∀ (e : Value) (es : List Value) (fuel : Nat) (rest : List Char),
    (jsonDumpsElems (e :: es)).length + 1 < fuel →
    parseElems fuel (jsonDumpsElems (e :: es) ++ ']' :: rest) = some (e :: es, rest)
  | e, [], fuel, rest, hf => by
    cases fuel with
    | zero => exact absurd hf (Nat.not_lt_zero _)
    | succ f =>
      have hone : jsonDumpsElems [e] = jsonDumpsChars e := by
        simp [jsonDumpsElems]
      have hfe : (jsonDumpsChars e).length < f := by
        rw [hone] at hf
        omega
      rw [hone]
      simp only [parseElems,
        rtVal e f (']' :: rest) hfe (intStop_cons ']' rest (by decide)),
        wsSkip_cons ']' rest (by decide),
        if_neg (show (']' : Char) ≠ ',' by decide), if_pos rfl, if_true]
  | e, x :: xs, fuel, rest, hf => by
    cases fuel with
    | zero => exact absurd hf (Nat.not_lt_zero _)
    | succ f =>
      have hel : jsonDumpsElems (e :: x :: xs)
          = jsonDumpsChars e ++ ',' :: ' ' :: jsonDumpsElems (x :: xs) := rfl
      have hlen : (jsonDumpsElems (e :: x :: xs)).length
          = (jsonDumpsChars e).length + 2 + (jsonDumpsElems (x :: xs)).length := by
        rw [hel]
        simp only [List.length_append, List.length_cons]
        omega
      have hfe : (jsonDumpsChars e).length < f := by omega
      have hfx : (jsonDumpsElems (x :: xs)).length + 1 < f := by omega
      have harg : jsonDumpsElems (e :: x :: xs) ++ ']' :: rest
          = jsonDumpsChars e
              ++ (',' :: ' ' :: (jsonDumpsElems (x :: xs) ++ ']' :: rest)) := by
        rw [hel]
        simp [List.append_assoc]
      have hwsX : wsSkip (' ' :: (jsonDumpsElems (x :: xs) ++ ']' :: rest))
          = jsonDumpsElems (x :: xs) ++ ']' :: rest := by
        rw [wsSkip_space]
        exact wsSkip_elems x xs (']' :: rest)
      rw [harg]
      simp only [parseElems,
        rtVal e f (',' :: ' ' :: (jsonDumpsElems (x :: xs) ++ ']' :: rest)) hfe
          (intStop_cons ',' _ (by decide)),
        wsSkip_cons ',' _ (by decide), if_pos rfl, hwsX,
        rtElems x xs f rest hfx, if_true,
        if_neg (show (',' : Char) ≠ ']' by decide)]
  termination_by e es _ _ _ => sizeOf e + sizeOf es
theorem rtEntries : ∀ (kv : String × Value) (ms : List (String × Value))
    (fuel : Nat) (rest : List Char),
    (jsonDumpsEntries (kv :: ms)).length + 1 < fuel →
    parseEntries fuel (jsonDumpsEntries (kv :: ms) ++ '\x7d' :: rest)
      = some (kv :: ms, rest)
  | (k, v), [], fuel, rest, hf => by
    cases fuel with
    | zero => exact absurd hf (Nat.not_lt_zero _)
    | succ f =>
      have hone : jsonDumpsEntries [(k, v)]
          = strLitChars k ++ ':' :: ' ' :: jsonDumpsChars v := rfl
      have hfv : (jsonDumpsChars v).length < f := by
        rw [hone] at hf
        simp only [List.length_append, List.length_cons] at hf
        omega
      have harg : jsonDumpsEntries [(k, v)] ++ '\x7d' :: rest
          = '"' :: (k.data.flatMap jsonEscapeChar
              ++ '"' :: (':' :: ' ' :: (jsonDumpsChars v ++ '\x7d' :: rest))) := by
        rw [hone]
        simp [strLitChars, List.append_assoc]
      rw [harg]
      simp only [parseEntries, wsSkip_cons '"' _ (by decide), if_pos rfl,
        parseStr_roundtrip_auto k (':' :: ' ' :: (jsonDumpsChars v ++ '\x7d' :: rest)),
        wsSkip_cons ':' _ (by decide), parseVal_ws,
        rtVal v f ('\x7d' :: rest) hfv (intStop_cons '\x7d' rest (by decide)),
        wsSkip_cons '\x7d' rest (by decide),
        if_neg (show ('\x7d' : Char) ≠ ',' by decide), if_pos rfl, if_true]
  | (k, v), kv2 :: ms, fuel, rest, hf => by
    cases fuel with
    | zero => exact absurd hf (Nat.not_lt_zero _)
    | succ f =>
      have hcons2 : jsonDumpsEntries ((k, v) :: kv2 :: ms)
          = strLitChars k ++ ':' :: ' ' :: jsonDumpsChars v
              ++ ',' :: ' ' :: jsonDumpsEntries (kv2 :: ms) := by
        match kv2 with
        | (k2, v2) => rfl
      have hlen : (jsonDumpsEntries ((k, v) :: kv2 :: ms)).length
          = (strLitChars k).length + 2 + (jsonDumpsChars v).length + 2
              + (jsonDumpsEntries (kv2 :: ms)).length := by
        rw [hcons2]
        simp only [List.length_append, List.length_cons]
        omega
      have hfv : (jsonDumpsChars v).length < f := by omega
      have hfx : (jsonDumpsEntries (kv2 :: ms)).length + 1 < f := by omega
      have harg : jsonDumpsEntries ((k, v) :: kv2 :: ms) ++ '\x7d' :: rest
          = '"' :: (k.data.flatMap jsonEscapeChar
              ++ '"' :: (':' :: ' ' :: (jsonDumpsChars v
                ++ ',' :: ' ' :: (jsonDumpsEntries (kv2 :: ms) ++ '\x7d' :: rest)))) := by
        rw [hcons2]
        simp [strLitChars, List.append_assoc]
      have hwsX : wsSkip (' ' :: (jsonDumpsEntries (kv2 :: ms) ++ '\x7d' :: rest))
          = jsonDumpsEntries (kv2 :: ms) ++ '\x7d' :: rest := by
        rw [wsSkip_space]
        exact wsSkip_entries kv2 ms ('\x7d' :: rest)
      rw [harg]
      simp only [parseEntries, wsSkip_cons '"' _ (by decide), if_pos rfl,
        parseStr_roundtrip_auto k
          (':' :: ' ' :: (jsonDumpsChars v
            ++ ',' :: ' ' :: (jsonDumpsEntries (kv2 :: ms) ++ '\x7d' :: rest))),
        wsSkip_cons ':' _ (by decide), parseVal_ws,
        rtVal v f (',' :: ' ' :: (jsonDumpsEntries (kv2 :: ms) ++ '\x7d' :: rest)) hfv
          (intStop_cons ',' _ (by decide)),
        wsSkip_cons ',' _ (by decide), if_pos rfl, hwsX,
        rtEntries kv2 ms f rest hfx, if_true]
  termination_by kv ms _ _ _ => sizeOf kv + sizeOf ms
end

/-- Codec round-trip of the remote backend's transport encoding:
`json.loads(json.dumps(v)) == v` for every cacheable value. -/
theorem jsonLoads_dumps (v : Value) : jsonLoads (jsonDumps v) = some v := by
  have h := rtVal v ((jsonDumpsChars v).length + 1) [] (Nat.lt_succ_self _) rfl
  rw [List.append_nil] at h
  show (match parseVal ((jsonDumpsChars v).length + 1) (jsonDumpsChars v) with
        | some (v', r) => if wsSkip r = [] then some v' else none
        | none => none) = some v
  rw [h]
  rfl

theorem update_same {α : Type} (f : String → Option α) (key : String)
    (v : Option α) : update f key v key = v := by
  simp [update]

theorem update_other {α : Type} (f : String → Option α) (key k : String)
    (v : Option α) (h : k ≠ key) : update f key v k = f k := by
  simp [update, h]

/-- Remote-backend round-trip: an immediate `get` after a successful `set`
decodes the freshly encoded value. -/
theorem redis_roundtrip (r : RedisCache) (k : String) (v : Value) (ttl : ℤ)
    (now : ℤ) (h : 0 < ttl) :
    ((r.set k v ttl now).2).get k now = some v := by
  have h1 : ¬ ttl ≤ 0 := not_le.mpr h
  have h2 : now < now + ttl := by omega
  rw [RedisCache.set, if_neg h1]
  simp only [RedisCache.get, RedisCache.activeRaw, update_same, if_pos h2]
  exact jsonLoads_dumps v

theorem update_idem {α : Type} (f : String → Option α) (key : String)
    (v : Option α) : update (update f key v) key v = update f key v := by
  funext k
  by_cases h : k = key <;> simp [update, h]

theorem mem_get_after_set (s : InMemoryCache) (k : String) (v : Value)
    (ttl t0 t1 : ℤ) (h : t1 ≤ t0 + ttl) :
    ((s.set k v ttl t0).2).get k t1 = (some v, (s.set k v ttl t0).2) := by
  simp only [InMemoryCache.set, InMemoryCache.get, update_same,
    if_neg (not_lt.mpr h)]

theorem mem_get_after_set_expired (s : InMemoryCache) (k : String) (v : Value)
    (ttl t0 t1 : ℤ) (h : t0 + ttl < t1) :
    ((s.set k v ttl t0).2).get k t1
      = (none, (((s.set k v ttl t0).2).delete k).2) := by
  simp only [InMemoryCache.set, InMemoryCache.get, update_same, if_pos h]

theorem mem_get_absent (s : InMemoryCache) (k : String) (t : ℤ)
    (h : s.cache k = none) : s.get k t = (none, s) := by
  simp only [InMemoryCache.get, h]

theorem mgr_get_absent (m : CacheManager) (k : String) (t : ℤ)
    (h : m.backend.cache k = none) : m.get k t = (none, m) := by
  unfold CacheManager.get
  cases hm : m.enabled with
  | false => simp
  | true =>
    simp only [hm, if_true, mem_get_absent m.backend k t h]
    rw [← hm]

theorem cachedCall_hit (ttl : ℤ) (pre : String)
    (f : List Value → List (String × Value) → Option Value)
    (args : List Value) (kwargs : List (String × Value)) (t : ℤ)
    (s : CachedState) (v : Value)
    (h : (s.mgr.get (generateKey pre args kwargs) t).1 = some v) :
    cachedCall ttl pre f args kwargs t s
      = (some v, ⟨(s.mgr.get (generateKey pre args kwargs) t).2, s.calls⟩) := by
  simp only [cachedCall, h]

theorem cachedCall_miss (ttl : ℤ) (pre : String)
    (f : List Value → List (String × Value) → Option Value)
    (args : List Value) (kwargs : List (String × Value)) (t : ℤ)
    (s : CachedState) (v : Value)
    (hf : f args kwargs = some v)
    (hk : s.mgr.backend.cache (generateKey pre args kwargs) = none) :
    cachedCall ttl pre f args kwargs t s
      = (some v, ⟨(s.mgr.set (generateKey pre args kwargs) v ttl t).2,
          s.calls + 1⟩) := by
  simp only [cachedCall, mgr_get_absent s.mgr (generateKey pre args kwargs) t hk, hf]

theorem cachedCall_miss_none (ttl : ℤ) (pre : String)
    (f : List Value → List (String × Value) → Option Value)
    (args : List Value) (kwargs : List (String × Value)) (t : ℤ)
    (s : CachedState)
    (hf : f args kwargs = none)
    (hk : s.mgr.backend.cache (generateKey pre args kwargs) = none) :
    cachedCall ttl pre f args kwargs t s = (none, ⟨s.mgr, s.calls + 1⟩) := by
  simp only [cachedCall, mgr_get_absent s.mgr (generateKey pre args kwargs) t hk, hf]

/-- C2: for both backends (in-memory and Redis), every key `k` and value
`v`, `set(k, v, ttl)` with `ttl > 0` followed immediately by `get(k)`
returns `v` unchanged — structural (deep) equality on `Value` covers nested
lists and dicts; for the remote backend this is round-tripping through the
JSON transport encoding. -/
theorem set_get_roundtrip (k : String) (v : Value) (ttl t : ℤ)
    (m : InMemoryCache) (r : RedisCache) (h : 0 < ttl) :
    ((m.set k v ttl t).2.get k t).1 = some v ∧
    ((r.set k v ttl t).2).get k t = some v := by
  constructor
  · rw [mem_get_after_set m k v ttl t t (by omega)]
  · exact redis_roundtrip r k v ttl t h

/-- Witness for C2 at a nested value. -/
theorem set_get_roundtrip_witness :
    (0 : ℤ) < 60 ∧
    (((InMemoryCache.empty.set "k"
          (.dict [("a", .list [.int 1, .str "x"]), ("b", .bool true)]) 60 0).2.get
            "k" 0).1
        = some (.dict [("a", .list [.int 1, .str "x"]), ("b", .bool true)]) ∧
      ((RedisCache.empty.set "k"
          (.dict [("a", .list [.int 1, .str "x"]), ("b", .bool true)]) 60 0).2).get
            "k" 0
        = some (.dict [("a", .list [.int 1, .str "x"]), ("b", .bool true)])) :=
  ⟨by decide,
    set_get_roundtrip "k" (.dict [("a", .list [.int 1, .str "x"]), ("b", .bool true)])
      60 0 InMemoryCache.empty RedisCache.empty (by decide)⟩

/-- C3: after `set(k, v, ttl)` at `t0`, a `get(k)` at any instant more than
`ttl` seconds later returns absent, and that access removes the expired
entry from both the value map and the expiry map (lazy purge). -/
theorem expired_get_absent_and_purged (m : InMemoryCache) (k : String)
    (v : Value) (ttl t0 t1 : ℤ) (h : t0 + ttl < t1) :
    ((m.set k v ttl t0).2.get k t1).1 = none ∧
    (((m.set k v ttl t0).2.get k t1).2).cache k = none ∧
    (((m.set k v ttl t0).2.get k t1).2).expiry k = none := by
  rw [mem_get_after_set_expired m k v ttl t0 t1 h]
  exact ⟨rfl, update_same _ _ _, update_same _ _ _⟩

/-- Witness for C3: `ttl = 1`, read two seconds later. -/
theorem expired_get_absent_and_purged_witness :
    (0 : ℤ) + 1 < 2 ∧
    (((InMemoryCache.empty.set "k" (.int 7) 1 0).2.get "k" 2).1 = none ∧
      (((InMemoryCache.empty.set "k" (.int 7) 1 0).2.get "k" 2).2).cache "k" = none ∧
      (((InMemoryCache.empty.set "k" (.int 7) 1 0).2.get "k" 2).2).expiry "k" = none) :=
  ⟨by decide, expired_get_absent_and_purged InMemoryCache.empty "k" (.int 7) 1 0 2
    (by decide)⟩

/-- C8 counterexample: the remote backend's `delete` on an absent key
returns `False`, not success — `bool(DEL k)` is `bool(0)` when no key was
removed. -/
theorem delete_absent_redis_counterexample :
    (RedisCache.empty.delete "k" 0).1 = false := rfl

/-- C8 amended: `delete` is idempotent on the store state for both
backends and never raises; the in-memory backend returns success even when
the key is absent, while the remote backend returns success exactly when
the key was present and live (so `False` when absent). -/
theorem delete_idempotent_amended (m : InMemoryCache) (r : RedisCache)
    (k : String) (t : ℤ) :
    (m.delete k).1 = true ∧
    ((m.delete k).2.delete k).2 = (m.delete k).2 ∧
    ((m.delete k).2.delete k).1 = true ∧
    ((r.delete k t).2.delete k t).2 = (r.delete k t).2 ∧
    (r.delete k t).1 = (r.activeRaw k t).isSome ∧
    ((r.delete k t).2.delete k t).1 = false := by
  refine ⟨rfl, ?_, rfl, ?_, rfl, ?_⟩
  · simp only [InMemoryCache.delete, update_idem]
  · simp only [RedisCache.delete, update_idem]
  · simp only [RedisCache.delete, RedisCache.activeRaw, update_same,
      Option.isSome_none]

/-- Well-formedness of the remote store at one key: whatever live string is
stored there decodes; every string the cache itself stores is
`json.dumps` output, so this holds on all states the backend reaches. -/
def RedisCache.wfAt (r : RedisCache) (k : String) (t : ℤ) : Bool :=
  match r.activeRaw k t with
  | some s => (jsonLoads s).isSome
  | none => true

/-- C9: for both backends, `exists(k)` returns true exactly when `get(k)`
would return a present value; for the remote backend this needs the stored
string at `k` (if any) to decode, which holds for everything `set` ever
stores. -/
theorem exists_agrees_with_get (m : InMemoryCache) (r : RedisCache)
    (k : String) (t : ℤ) (hk : r.wfAt k t = true) :
    (m.existsKey k t).1 = ((m.get k t).1).isSome ∧
    r.existsKey k t = (r.get k t).isSome := by
  constructor
  · rfl
  · unfold RedisCache.wfAt at hk
    unfold RedisCache.existsKey RedisCache.get
    cases ha : r.activeRaw k t with
    | none => rfl
    | some raw =>
      rw [ha] at hk
      simp only [Option.isSome_some]
      exact hk.symm

/-- Witness for C9 on a store produced by `set`. -/
theorem exists_agrees_with_get_witness :
    ((RedisCache.empty.set "k" (.int 5) 60 0).2).wfAt "k" 0 = true ∧
    (((InMemoryCache.empty.set "k" (.int 5) 60 0).2.existsKey "k" 0).1
        = ((((InMemoryCache.empty.set "k" (.int 5) 60 0).2).get "k" 0).1).isSome ∧
      ((RedisCache.empty.set "k" (.int 5) 60 0).2).existsKey "k" 0
        = (((RedisCache.empty.set "k" (.int 5) 60 0).2).get "k" 0).isSome) :=
  ⟨by decide, exists_agrees_with_get (InMemoryCache.empty.set "k" (.int 5) 60 0).2
    (RedisCache.empty.set "k" (.int 5) 60 0).2 "k" 0 (by decide)⟩

theorem memInv_get (s : InMemoryCache) (key : String) (now : ℤ)
    (hs : ∀ k, (s.cache k).isSome = (s.expiry k).isSome) (k : String) :
    (((s.get key now).2).cache k).isSome
      = (((s.get key now).2).expiry k).isSome := by
  simp only [InMemoryCache.get]
  cases hc : s.cache key with
  | none => exact hs k
  | some v =>
    cases he : s.expiry key with
    | none =>
      have h1 := hs key
      rw [hc, he] at h1
      simp at h1
    | some e =>
      by_cases hexp : now > e
      · simp only [if_pos hexp]
        by_cases h : k = key <;>
          simp [InMemoryCache.delete, update, h, hs k]
      · simp only [if_neg hexp]
        exact hs k

theorem memInv_step (s : InMemoryCache) (op : MemOp)
    (hs : ∀ k, (s.cache k).isSome = (s.expiry k).isSome) :
    ∀ k, ((op.apply s).cache k).isSome = ((op.apply s).expiry k).isSome := by
  intro k
  cases op with
  | delete key =>
    by_cases h : k = key <;>
      simp [MemOp.apply, InMemoryCache.delete, update, h, hs k]
  | set key v ttl now =>
    by_cases h : k = key <;>
      simp [MemOp.apply, InMemoryCache.set, update, h, hs k]
  | clear => simp [MemOp.apply, InMemoryCache.clear]
  | cleanupExpired now =>
    simp only [MemOp.apply, InMemoryCache.cleanupExpired]
    cases he : s.expiry k with
    | none =>
      cases hc : s.cache k with
      | none => simp
      | some v =>
        have h1 := hs k
        rw [hc, he] at h1
        simp at h1
    | some e =>
      by_cases hexp : now > e
      · simp [hexp]
      · simp [hexp, hs k, he]
  | get key now => exact memInv_get s key now hs k
  | existsKey key now => exact memInv_get s key now hs k

/-- C10: starting from a fresh in-memory cache, after any sequence of
backend operations the value map and the expiry map hold exactly the same
keys — every stored entry has an expiry timestamp and no timestamp is
orphaned. -/
theorem inmemory_cache_expiry_key_invariant (ops : List MemOp) (k : String) :
    ((runOps ops InMemoryCache.empty).cache k).isSome
      = ((runOps ops InMemoryCache.empty).expiry k).isSome := by
  suffices h : ∀ (ops : List MemOp) (s : InMemoryCache),
      (∀ k, (s.cache k).isSome = (s.expiry k).isSome) →
      ∀ k, ((runOps ops s).cache k).isSome = ((runOps ops s).expiry k).isSome by
    exact h ops InMemoryCache.empty (fun _ => rfl) k
  intro ops
  induction ops with
  | nil => intro s hs k; exact hs k
  | cons op rest ih =>
    intro s hs k
    rw [show runOps (op :: rest) s = runOps rest (op.apply s) from rfl]
    exact ih (op.apply s) (memInv_step s op hs) k

/-- C6: while the manager is disabled, `get` always misses, `exists` is
false and `set` fails, none of them touching the backend; `delete` and
`clear` keep delegating regardless of the flag; disabling does not change
the backend, so after re-enabling, `get` sees every entry that was never
deleted and has not expired. -/
theorem disable_enable_semantics (b : InMemoryCache) (k : String) (v : Value)
    (ttl t e : ℤ) (h1 : b.cache k = some v) (h2 : b.expiry k = some e)
    (h3 : t ≤ e) :
    (CacheManager.mk b false).get k t = (none, CacheManager.mk b false) ∧
    (CacheManager.mk b false).existsKey k t = (false, CacheManager.mk b false) ∧
    (CacheManager.mk b false).set k v ttl t = (false, CacheManager.mk b false) ∧
    ((CacheManager.mk b false).delete k).2.backend = (b.delete k).2 ∧
    ((CacheManager.mk b false).clear).2.backend = (b.clear).2 ∧
    (CacheManager.mk b true).disable = CacheManager.mk b false ∧
    (((CacheManager.mk b false).enable).get k t).1 = some v := by
  refine ⟨rfl, rfl, rfl, rfl, rfl, rfl, ?_⟩
  show ((b.get k t).1 = some v)
  simp only [InMemoryCache.get, h1, h2, if_neg (not_lt.mpr h3)]

/-- Witness for C6 on a backend holding one live entry. -/
theorem disable_enable_semantics_witness :
    ((InMemoryCache.empty.set "k" (.int 9) 60 0).2.cache "k" = some (.int 9) ∧
      (InMemoryCache.empty.set "k" (.int 9) 60 0).2.expiry "k" = some 60 ∧
      (30 : ℤ) ≤ 60) ∧
    (((CacheManager.mk (InMemoryCache.empty.set "k" (.int 9) 60 0).2 false).enable).get
        "k" 30).1 = some (.int 9) :=
  ⟨⟨rfl, rfl, by decide⟩,
    (disable_enable_semantics (InMemoryCache.empty.set "k" (.int 9) 60 0).2 "k"
      (.int 9) 5 30 60 rfl rfl (by decide)).2.2.2.2.2.2⟩

/-- C1: wrapping any operation, a first call whose non-null result gets
stored and a second call with identical arguments while that entry is
unexpired: the second call returns the cached value and the underlying
operation has run exactly once. -/
theorem cached_hit_invokes_once (ttl : ℤ) (pre : String)
    (f : List Value → List (String × Value) → Option Value)
    (args : List Value) (kwargs : List (String × Value))
    (t0 t1 : ℤ) (v : Value)
    (hf : f args kwargs = some v) (hle : t1 ≤ t0 + ttl) :
    (cachedCall ttl pre f args kwargs t0 ⟨CacheManager.init, 0⟩).1 = some v ∧
    ((cachedCall ttl pre f args kwargs t0 ⟨CacheManager.init, 0⟩).2).calls = 1 ∧
    (cachedCall ttl pre f args kwargs t1
      (cachedCall ttl pre f args kwargs t0 ⟨CacheManager.init, 0⟩).2).1 = some v ∧
    ((cachedCall ttl pre f args kwargs t1
      (cachedCall ttl pre f args kwargs t0 ⟨CacheManager.init, 0⟩).2).2).calls = 1 := by
  have h1 := cachedCall_miss ttl pre f args kwargs t0 ⟨CacheManager.init, 0⟩ v hf rfl
  have hset : ((⟨CacheManager.init, 0⟩ : CachedState).mgr.set
        (generateKey pre args kwargs) v ttl t0).2
      = ⟨(InMemoryCache.empty.set (generateKey pre args kwargs) v ttl t0).2, true⟩ := rfl
  rw [hset] at h1
  have hhit : ((⟨(InMemoryCache.empty.set (generateKey pre args kwargs) v ttl t0).2,
        true⟩ : CacheManager).get (generateKey pre args kwargs) t1).1 = some v := by
    show ((InMemoryCache.empty.set (generateKey pre args kwargs) v ttl t0).2.get
        (generateKey pre args kwargs) t1).1 = some v
    rw [mem_get_after_set InMemoryCache.empty _ v ttl t0 t1 hle]
  have h2 := cachedCall_hit ttl pre f args kwargs t1
    ⟨⟨(InMemoryCache.empty.set (generateKey pre args kwargs) v ttl t0).2, true⟩, 0 + 1⟩
    v hhit
  refine ⟨?_, ?_, ?_, ?_⟩
  · rw [h1]
  · rw [h1]
  · rw [h1, h2]
  · rw [h1, h2]

/-- Witness for C1 with a concrete counting operation. -/
theorem cached_hit_invokes_once_witness :
    (fun (_ : List Value) (_ : List (String × Value)) => some (Value.int 42))
        [.int 7] [] = some (Value.int 42) ∧
    (30 : ℤ) ≤ 0 + 60 ∧
    ((cachedCall 60 "lookup" (fun _ _ => some (Value.int 42)) [.int 7] [] 0
        ⟨CacheManager.init, 0⟩).1 = some (.int 42) ∧
      ((cachedCall 60 "lookup" (fun _ _ => some (Value.int 42)) [.int 7] [] 30
        (cachedCall 60 "lookup" (fun _ _ => some (Value.int 42)) [.int 7] [] 0
          ⟨CacheManager.init, 0⟩).2).2).calls = 1) :=
  ⟨rfl, by decide,
    ⟨(cached_hit_invokes_once 60 "lookup" (fun _ _ => some (Value.int 42)) [.int 7] []
        0 30 (.int 42) rfl (by decide)).1,
      (cached_hit_invokes_once 60 "lookup" (fun _ _ => some (Value.int 42)) [.int 7] []
        0 30 (.int 42) rfl (by decide)).2.2.2⟩⟩

/-- C7: a wrapped operation that returns the `None` sentinel is never
stored: the call returns `None`, leaves the cache without the key, and a
subsequent call with the same arguments invokes the operation again. -/
theorem none_result_never_cached (ttl : ℤ) (pre : String)
    (f : List Value → List (String × Value) → Option Value)
    (args : List Value) (kwargs : List (String × Value))
    (t1 t2 : ℤ) (s : CachedState)
    (hf : f args kwargs = none)
    (hk : s.mgr.backend.cache (generateKey pre args kwargs) = none) :
    cachedCall ttl pre f args kwargs t1 s = (none, ⟨s.mgr, s.calls + 1⟩) ∧
    cachedCall ttl pre f args kwargs t2 ⟨s.mgr, s.calls + 1⟩
      = (none, ⟨s.mgr, s.calls + 1 + 1⟩) := by
  exact ⟨cachedCall_miss_none ttl pre f args kwargs t1 s hf hk,
    cachedCall_miss_none ttl pre f args kwargs t2 ⟨s.mgr, s.calls + 1⟩ hf hk⟩

/-- Witness for C7 with an operation that always reports "not found". -/
theorem none_result_never_cached_witness :
    (fun (_ : List Value) (_ : List (String × Value)) =>
        (none : Option Value)) [.str "q"] [] = none ∧
    (⟨CacheManager.init, 0⟩ : CachedState).mgr.backend.cache
        (generateKey "find" [.str "q"] []) = none ∧
    (cachedCall 60 "find" (fun _ _ => none) [.str "q"] [] 0
        ⟨CacheManager.init, 0⟩ = (none, ⟨CacheManager.init, 0 + 1⟩) ∧
      cachedCall 60 "find" (fun _ _ => none) [.str "q"] [] 1
        ⟨CacheManager.init, 0 + 1⟩ = (none, ⟨CacheManager.init, 0 + 1 + 1⟩)) :=
  ⟨rfl, rfl,
    none_result_never_cached 60 "find" (fun _ _ => none) [.str "q"] [] 0 1
      ⟨CacheManager.init, 0⟩ rfl rfl⟩

/-- C5: `invalidate_cache` deletes exactly the key the wrapper computes for
the same prefix and arguments (both call the same `generate_key`), so the
next wrapped call re-invokes the underlying operation even though its
result was cached. -/
theorem invalidate_then_reinvoke (ttl : ℤ) (pre : String)
    (f : List Value → List (String × Value) → Option Value)
    (args : List Value) (kwargs : List (String × Value))
    (m : CacheManager) (v : Value) (t0 t1 : ℤ)
    (hf : f args kwargs = some v) :
    (invalidateCache pre args kwargs m).backend.cache
      (generateKey pre args kwargs) = none ∧
    (invalidateCache pre args kwargs m).backend.expiry
      (generateKey pre args kwargs) = none ∧
    ((cachedCall ttl pre f args kwargs t0 ⟨CacheManager.init, 0⟩).2).calls = 1 ∧
    (cachedCall ttl pre f args kwargs t1
      ⟨invalidateCache pre args kwargs
          ((cachedCall ttl pre f args kwargs t0 ⟨CacheManager.init, 0⟩).2).mgr,
        ((cachedCall ttl pre f args kwargs t0 ⟨CacheManager.init, 0⟩).2).calls⟩).1
      = some v ∧
    ((cachedCall ttl pre f args kwargs t1
      ⟨invalidateCache pre args kwargs
          ((cachedCall ttl pre f args kwargs t0 ⟨CacheManager.init, 0⟩).2).mgr,
        ((cachedCall ttl pre f args kwargs t0 ⟨CacheManager.init, 0⟩).2).calls⟩).2).calls
      = 2 := by
  have hinv : ∀ mm : CacheManager,
      (invalidateCache pre args kwargs mm).backend.cache
          (generateKey pre args kwargs) = none ∧
      (invalidateCache pre args kwargs mm).backend.expiry
          (generateKey pre args kwargs) = none := by
    intro mm
    constructor <;>
      simp [invalidateCache, CacheManager.delete, InMemoryCache.delete, update_same]
  have h1 := cachedCall_miss ttl pre f args kwargs t0 ⟨CacheManager.init, 0⟩ v hf rfl
  have h2 := cachedCall_miss ttl pre f args kwargs t1
    ⟨invalidateCache pre args kwargs
        ((cachedCall ttl pre f args kwargs t0 ⟨CacheManager.init, 0⟩).2).mgr,
      ((cachedCall ttl pre f args kwargs t0 ⟨CacheManager.init, 0⟩).2).calls⟩
    v hf
    (hinv ((cachedCall ttl pre f args kwargs t0 ⟨CacheManager.init, 0⟩).2).mgr).1
  refine ⟨(hinv m).1, (hinv m).2, ?_, ?_, ?_⟩
  · rw [h1]
  · rw [h2]
  · rw [h2]
    rw [show ((cachedCall ttl pre f args kwargs t0 ⟨CacheManager.init, 0⟩).2).calls = 1
      from by rw [h1]]

/-- Witness for C5. -/
theorem invalidate_then_reinvoke_witness :
    (fun (_ : List Value) (_ : List (String × Value)) => some (Value.int 3))
        [.int 1] [] = some (Value.int 3) ∧
    (((cachedCall 60 "g" (fun _ _ => some (Value.int 3)) [.int 1] [] 0
        ⟨CacheManager.init, 0⟩).2).calls = 1 ∧
      ((cachedCall 60 "g" (fun _ _ => some (Value.int 3)) [.int 1] [] 5
        ⟨invalidateCache "g" [.int 1] []
            ((cachedCall 60 "g" (fun _ _ => some (Value.int 3)) [.int 1] [] 0
              ⟨CacheManager.init, 0⟩).2).mgr,
          ((cachedCall 60 "g" (fun _ _ => some (Value.int 3)) [.int 1] [] 0
            ⟨CacheManager.init, 0⟩).2).calls⟩).2).calls = 2) :=
  ⟨rfl,
    ⟨(invalidate_then_reinvoke 60 "g" (fun _ _ => some (Value.int 3)) [.int 1] []
        CacheManager.init (.int 3) 0 5 rfl).2.2.1,
      (invalidate_then_reinvoke 60 "g" (fun _ _ => some (Value.int 3)) [.int 1] []
        CacheManager.init (.int 3) 0 5 rfl).2.2.2.2⟩⟩

theorem string_append_left_cancel (a b c : String) (h : a ++ b = a ++ c) :
    b = c := by
  have hd := congrArg String.data h
  simp only [String.data_append] at hd
  have h2 := List.append_cancel_left hd
  cases b
  cases c
  exact congrArg String.mk (by simpa using h2)

theorem sortedKwargs_perm_eq (kw kw2 : List (String × Value))
    (hperm : kw.Perm kw2) (hnd : (kw.map Prod.fst).Nodup) :
    sortedKwargs kw = sortedKwargs kw2 := by
  have hsymm : Symmetric (fun a b : String × Value => a.1 ≠ b.1) :=
    fun _ _ h => Ne.symm h
  have hs1 : List.Sorted kwLE (sortedKwargs kw) :=
    List.sorted_insertionSort kwLE kw
  have hs2 : List.Sorted kwLE (sortedKwargs kw2) :=
    List.sorted_insertionSort kwLE kw2
  have hp : (sortedKwargs kw).Perm (sortedKwargs kw2) :=
    (List.perm_insertionSort kwLE kw).trans
      (hperm.trans (List.perm_insertionSort kwLE kw2).symm)
  have hnd' : List.Pairwise (fun a b : String × Value => a.1 ≠ b.1) kw := by
    have h0 : List.Pairwise (· ≠ ·) (kw.map Prod.fst) := hnd
    rw [List.pairwise_map] at h0
    exact h0.imp fun h => h
  have hne1 : List.Pairwise (fun a b : String × Value => a.1 ≠ b.1)
      (sortedKwargs kw) :=
    (((List.perm_insertionSort kwLE kw).pairwise_iff
      (fun h => Ne.symm h)).mpr hnd')
  have hne2 : List.Pairwise (fun a b : String × Value => a.1 ≠ b.1)
      (sortedKwargs kw2) :=
    (((List.perm_insertionSort kwLE kw2).pairwise_iff
      (fun h => Ne.symm h)).mpr
      ((hperm.pairwise_iff (fun h => Ne.symm h)).mp hnd'))
  haveI : IsAntisymm (String × Value)
      (fun a b => kwLE a b ∧ a.1 ≠ b.1) := ⟨by
    rintro ⟨a1, a2⟩ ⟨b1, b2⟩ ⟨hab, hne⟩ ⟨hba, -⟩
    exfalso
    apply hne
    have habs := charListLe_antisymm _ _ hab hba
    show a1 = b1
    cases a1
    cases b1
    exact congrArg String.mk (by simpa using habs)⟩
  exact List.eq_of_perm_of_sorted hp (hs1.and hne1) (hs2.and hne2)

/-- C4: key generation is deterministic and order-canonical — permuting the
keyword arguments (distinct names, as Python guarantees) never changes the
key — while distinct positional-argument orders produce distinct canonical
strings, so their keys differ unless the hash itself collides: any equality
of keys for the spec's `(1, 2)` vs `(2, 1)` example would be an MD5
collision on two different canonical strings. -/
theorem generate_key_spec (p : String) (args : List Value)
    (kw kw2 : List (String × Value)) (hperm : kw.Perm kw2)
    (hnd : (kw.map Prod.fst).Nodup) :
    generateKey p args kw = generateKey p args kw2 ∧
    canonicalKeyString p [.int 1, .int 2] []
      ≠ canonicalKeyString p [.int 2, .int 1] [] ∧
    (generateKey p [.int 1, .int 2] [] = generateKey p [.int 2, .int 1] [] →
      md5Hex (strBytes (canonicalKeyString p [.int 1, .int 2] []))
        = md5Hex (strBytes (canonicalKeyString p [.int 2, .int 1] []))) := by
  refine ⟨?_, ?_, ?_⟩
  · unfold generateKey canonicalKeyString
    rw [sortedKwargs_perm_eq kw kw2 hperm hnd]
  · intro h
    have e1 : canonicalKeyString p [.int 1, .int 2] [] = p ++ ":" ++ "1:2" := rfl
    have e2 : canonicalKeyString p [.int 2, .int 1] [] = p ++ ":" ++ "2:1" := rfl
    rw [e1, e2] at h
    have h2 := string_append_left_cancel (p ++ ":") _ _ h
    exact absurd h2 (by decide)
  · intro h
    unfold generateKey at h
    exact string_append_left_cancel (p ++ ":") _ _ h

/-- Witness for C4: swapped keyword order, distinct names; the extra
conjunct checks the spec's concrete example keys really differ (the MD5
digests are computed). -/
theorem generate_key_spec_witness :
    ([("a", Value.int 3), ("b", Value.int 4)]).Perm
        [("b", Value.int 4), ("a", Value.int 3)] ∧
    (([("a", Value.int 3), ("b", Value.int 4)]).map Prod.fst).Nodup ∧
    generateKey "p" [.int 1] [("a", .int 3), ("b", .int 4)]
      = generateKey "p" [.int 1] [("b", .int 4), ("a", .int 3)] ∧
    generateKey "p" [.int 1, .int 2] [] ≠ generateKey "p" [.int 2, .int 1] [] :=
  ⟨List.Perm.swap ("b", Value.int 4) ("a", Value.int 3) [],
    by decide,
    (generate_key_spec "p" [.int 1] [("a", .int 3), ("b", .int 4)]
      [("b", .int 4), ("a", .int 3)]
      (List.Perm.swap ("b", Value.int 4) ("a", Value.int 3) [])
      (by decide)).1,
    by decide⟩
